import Mathlib

/-!
Shallow embedding of the route-commenter action (`src/index.js`) and proofs
about it.  File contents are modelled as `List Char`; a file's lines are the
result of splitting on the newline character, exactly as `data.split('\n')`
does in the source.  JavaScript's regular-expression searches are embedded as
deterministic leftmost-match scanners (the concrete patterns used by the
source have disjoint character classes at every boundary, so greedy maximal
munch without backtracking computes the same match the JS engine does).
-/

namespace RouteCommenter

/-- The apostrophe character (used in embedded source snippets). -/
def quoteCh : Char := Char.ofNat 39

/-- JavaScript whitespace characters relevant here (the `\s` class restricted
to ASCII; all inputs in this development are ASCII). -/
def isWs (c : Char) : Bool :=
  c = ' ' || c = '\t' || c = '\n' || c = '\r' || c = Char.ofNat 11 || c = Char.ofNat 12

/-- The `\w` character class: `[A-Za-z0-9_]`. -/
def isWordCh (c : Char) : Bool :=
  ('a' ≤ c && c ≤ 'z') || ('A' ≤ c && c ≤ 'Z') || ('0' ≤ c && c ≤ '9') || c = '_'

/-- The `\d` character class. -/
def isDigitCh (c : Char) : Bool :=
  '0' ≤ c && c ≤ '9'

/-- Does `cs` start with `pat`?  (`String.prototype.startsWith` / a literal at
the head of a regex.) -/
def listStartsWith : List Char → List Char → Bool
  | _, [] => true
  | [], _ :: _ => false
  | a :: as, b :: bs => a = b && listStartsWith as bs

/-- Does `cs` end with `pat`?  (`String.prototype.endsWith`.) -/
def listEndsWith (cs pat : List Char) : Bool :=
  listStartsWith cs.reverse pat.reverse

/-- Does `cs` contain `pat` as a contiguous substring?
(`String.prototype.includes`.) -/
def hasSub (pat : List Char) : List Char → Bool
  | [] => listStartsWith [] pat
  | c :: rest => listStartsWith (c :: rest) pat || hasSub pat rest

/-- Embeds `String.prototype.trim`: drop whitespace from both ends. -/
def trimChars (cs : List Char) : List Char :=
  ((cs.dropWhile isWs).reverse.dropWhile isWs).reverse

/-- Embeds `data.split('\n')`: split a character list at newline characters.  Always
returns at least one (possibly empty) line. -/
def splitNl : List Char → List (List Char)
  | [] => [[]]
  | c :: rest =>
    if c = '\n' then [] :: splitNl rest
    else
      match splitNl rest with
      | [] => [[c]]
      | l :: ls => (c :: l) :: ls

/-- Numeric value of a digit list (the effect of `parseInt(·, 10)` on a
`\d+` capture). -/
def digitsToNat (ds : List Char) : Nat :=
  ds.foldl (fun acc c => acc * 10 + (c.toNat - '0'.toNat)) 0

/-- Try to strip the literal `lit` from the front of `cs`. -/
def stripLit (lit cs : List Char) : Option (List Char) :=
  if listStartsWith cs lit then some (cs.drop lit.length) else none

/-! ### Block scanner (`detectRoutesInFile`, src/index.js lines 271–336) -/

/-- The `type` tag of a scanned route block (`'single-line'`, `'multi-line'`,
`'incomplete'` in the source). -/
inductive RouteType where
  | singleLine
  | multiLine
  | incomplete
deriving DecidableEq, Repr

/-- One route block as pushed by `detectRoutesInFile`, together with the
`selectedLine` field that `getCommentingLines` later adds by mutation
(absent, i.e. `undefined`, is modelled as `none`). -/
structure Route where
  startLine : Nat
  endLine : Nat
  code : List Char
  type : RouteType
  selectedLine : Option Nat := none
deriving DecidableEq, Repr

/-- Match `const\s+(\w+)\s*=\s*express\.Router\(\)` at the very start of
`cs`, returning the `\w+` capture.  All quantified classes are disjoint from
the literal that follows them, so greedy maximal munch is exact. -/
def matchDeclAt (cs : List Char) : Option (List Char) :=
  match stripLit "const".data cs with
  | none => none
  | some cs1 =>
    if (cs1.takeWhile isWs).isEmpty then none
    else
      let cs2 := cs1.dropWhile isWs
      let w := cs2.takeWhile isWordCh
      if w.isEmpty then none
      else
        let cs3 := (cs2.dropWhile isWordCh).dropWhile isWs
        match stripLit "=".data cs3 with
        | none => none
        | some cs4 =>
          match stripLit "express.Router()".data (cs4.dropWhile isWs) with
          | none => none
          | some _ => some w

/-- Embeds `line.match(/const\s+(\w+)\s*=\s*express\.Router\(\)/)`: leftmost match
of the declaration pattern anywhere in the line, returning capture group 1. -/
def findDecl : List Char → Option (List Char)
  | [] => none
  | c :: rest =>
    match matchDeclAt (c :: rest) with
    | some w => some w
    | none => findDecl rest

/-- Embeds `new RegExp("^\\s*" + routerVariable + "\\.").test(line)`: the line,
after optional leading whitespace, begins with the router variable followed
by a dot.  (`routerVariable` is a `\w+` capture, hence contains no regex
metacharacters and never starts with whitespace.) -/
def routeStartTest (v line : List Char) : Bool :=
  listStartsWith (line.dropWhile isWs) (v ++ ['.'])

/-- The mutable locals of the scanning loop in `detectRoutesInFile`. -/
structure ScanState where
  routerVariable : Option (List Char)
  insideRoute : Bool
  startLine : Nat
  routeContent : List Char
  routes : List Route
deriving Repr

/-- Starting state of the scan. -/
def initScan : ScanState :=
  { routerVariable := none
    insideRoute := false
    startLine := 0
    routeContent := []
    routes := [] }

/-- The body of the `if (routerVariable)` guard in the scanning loop,
with `v` the bound router variable (every branch keeps it bound). -/
def routeBodyStep (st : ScanState) (lineNumber : Nat) (line : List Char)
    (v : List Char) : ScanState :=
  if routeStartTest v line && !st.insideRoute then
      let content := line ++ ['\n']
      if listEndsWith (trimChars line) [')', ';'] then
        { st with
            routerVariable := some v
            insideRoute := false
            startLine := lineNumber + 1
            routeContent := []
            routes := st.routes ++
              [{ startLine := lineNumber + 1
                 endLine := lineNumber + 1
                 code := trimChars content
                 type := .singleLine }] }
      else
        { st with
            routerVariable := some v
            insideRoute := true
            startLine := lineNumber + 1
            routeContent := content }
    else if st.insideRoute then
      let content := st.routeContent ++ line ++ ['\n']
      if trimChars line = [')', ';'] || hasSub [')', ';'] line then
        { st with
            routerVariable := some v
            insideRoute := false
            routeContent := []
            routes := st.routes ++
              [{ startLine := st.startLine
                 endLine := lineNumber + 1
                 code := trimChars content
                 type := .multiLine }] }
      else
        { st with
            routerVariable := some v
            routeContent := content }
    else
      { st with routerVariable := some v }

/-- One iteration of the `for (let lineNumber = 0; ...)` loop of
`detectRoutesInFile`, processing the 0-indexed line `lineNumber`: first the
declaration search (only while `routerVariable` is unbound, and effective on
the same line), then, whenever a binding is known, the route logic. -/
def processLine (st : ScanState) (lineNumber : Nat) (line : List Char) : ScanState :=
  match (match st.routerVariable with
         | none => findDecl line
         | some v => some v) with
  | none => st
  | some v => routeBodyStep st lineNumber line v

/-- The whole scanning loop over the remaining lines, starting at 0-indexed
line `lineNumber`. -/
def scanLoop (st : ScanState) (lineNumber : Nat) : List (List Char) → ScanState
  | [] => st
  | l :: rest => scanLoop (processLine st lineNumber l) (lineNumber + 1) rest

/-- The scanner state after the loop has consumed every line of `content`. -/
def scanFinal (content : List Char) : ScanState :=
  scanLoop initScan 0 (splitNl content)

/-- All route blocks produced by scanning `content`: the loop's pushes plus
the trailing `incomplete` block when end of file is reached inside a route. -/
def scanRoutes (content : List Char) : List Route :=
  let lines := splitNl content
  let fin := scanFinal content
  if fin.insideRoute then
    fin.routes ++
      [{ startLine := fin.startLine
         endLine := lines.length
         code := trimChars fin.routeContent
         type := .incomplete }]
  else
    fin.routes

/-- Embeds `detectRoutesInFile` (minus the file read): scan, then keep the routes
whose `[startLine, endLine]` range meets the changed-line list. -/
def detectRoutesInFile (content : List Char) (changedLines : List Nat) : List Route :=
  (scanRoutes content).filter
    (fun route => changedLines.any (fun line => route.startLine ≤ line && line ≤ route.endLine))

/-! ### Diff hunk extraction (`getDiffHunks`, src/index.js lines 338–349, and
the changed-line computation in `main`, lines 472–484) -/

/-- One parsed hunk header. -/
structure DiffHunk where
  originalStart : Nat
  newStart : Nat
deriving DecidableEq, Repr

/-- Skip an optional `,\d+` group.  The group is only consumed when a comma
followed by at least one digit is present; otherwise the input is returned
unchanged (and, as in the JS regex, the following literal then fails on the
stray comma). -/
def skipOptCount (cs : List Char) : List Char :=
  match cs with
  | ',' :: rest =>
    if (rest.takeWhile isDigitCh).isEmpty then cs else rest.dropWhile isDigitCh
  | _ => cs

/-- Match `@@ \-(\d+)(?:,\d+)? \+(\d+)(?:,\d+)? @@` at the start of `cs`,
returning `(originalStart, newStart)` (captures 1 and 2 through
`parseInt`). -/
def matchHunkAt (cs : List Char) : Option (Nat × Nat) :=
  match stripLit "@@ -".data cs with
  | none => none
  | some cs1 =>
    let d1 := cs1.takeWhile isDigitCh
    if d1.isEmpty then none
    else
      let cs2 := skipOptCount (cs1.dropWhile isDigitCh)
      match stripLit " +".data cs2 with
      | none => none
      | some cs3 =>
        let d2 := cs3.takeWhile isDigitCh
        if d2.isEmpty then none
        else
          let cs4 := skipOptCount (cs3.dropWhile isDigitCh)
          match stripLit " @@".data cs4 with
          | none => none
          | some _ => some (digitsToNat d1, digitsToNat d2)

/-- Embeds `hunk.match(/@@ \-(\d+)(?:,\d+)? \+(\d+)(?:,\d+)? @@/)`: leftmost match
anywhere in the line. -/
def findHunk : List Char → Option (Nat × Nat)
  | [] => none
  | c :: rest =>
    match matchHunkAt (c :: rest) with
    | some r => some r
    | none => findHunk rest

/-- Parse every filtered header line; a single failed match makes the whole
map throw (`match[1]` on `null`), modelled as `none`. -/
def mapHunks : List (List Char) → Option (List DiffHunk)
  | [] => some []
  | l :: ls =>
    match findHunk l with
    | none => none
    | some (o, n) =>
      match mapHunks ls with
      | none => none
      | some hs => some ({ originalStart := o, newStart := n } :: hs)

/-- Embeds `getDiffHunks` (minus the `git diff` invocation): split the diff output
into lines, keep those starting with `@@`, parse each header. -/
def getDiffHunks (diffOutput : List Char) : Option (List DiffHunk) :=
  mapHunks ((splitNl diffOutput).filter (fun l => listStartsWith l ['@', '@']))

/-- Match `\+(\d+)(,\d+)?` at the start of `cs`: `(start, optional count)`. -/
def matchPlusAt (cs : List Char) : Option (Nat × Option Nat) :=
  match cs with
  | '+' :: rest =>
    let ds := rest.takeWhile isDigitCh
    if ds.isEmpty then none
    else
      match rest.dropWhile isDigitCh with
      | ',' :: rest2 =>
        let cs2 := rest2.takeWhile isDigitCh
        if cs2.isEmpty then some (digitsToNat ds, none)
        else some (digitsToNat ds, some (digitsToNat cs2))
      | _ => some (digitsToNat ds, none)
  | _ => none

/-- Embeds `line.match(/\+(\d+)(,\d+)?/)`: leftmost match anywhere in the line. -/
def findPlus : List Char → Option (Nat × Option Nat)
  | [] => none
  | c :: rest =>
    match matchPlusAt (c :: rest) with
    | some r => some r
    | none => findPlus rest

/-- The `flatMap` body of the changed-line computation in `main`: expand one
`@@` line into `[start, start+1, …, start+count-1]`, with the count
defaulting to 1 when the `,\d+` group is absent. -/
def expandPlus (l : List Char) : List Nat :=
  match findPlus l with
  | some (start, cnt) =>
    (List.range (match cnt with | some c => c | none => 1)).map (fun i => start + i)
  | none => []

/-- The changed-line list computed in `main` from the raw diff output. -/
def changedLinesOfDiff (diffOutput : List Char) : List Nat :=
  (((splitNl diffOutput).filter (fun l => listStartsWith l ['@', '@'])).map expandPlus).flatten

/-- The per-file diff extraction performed by `main`: `getDiffHunks` first
(a malformed header throws there, so nothing is produced), then the
changed-line list. -/
def extractFileDiff (diffOutput : List Char) : Option (List DiffHunk × List Nat) :=
  match getDiffHunks diffOutput with
  | none => none
  | some hs => some (hs, changedLinesOfDiff diffOutput)

/-- Embeds `findDiffHunkLineNumber` (src/index.js lines 351–358): first hunk in
list order whose `newStart` is at most the target line wins. -/
def findDiffHunkLineNumber (diffHunks : List DiffHunk) (targetLine : Nat) : Option Nat :=
  match diffHunks with
  | [] => none
  | h :: rest =>
    if targetLine ≥ h.newStart then some (targetLine - h.newStart + h.originalStart)
    else findDiffHunkLineNumber rest targetLine

/-! ### The matcher (`getCommentingLines`, src/index.js lines 360–371) -/

/-- Embeds `line >= route.startLine && line <= route.endLine`. -/
def inR (route : Route) (line : Nat) : Bool :=
  decide (route.startLine ≤ line) && decide (line ≤ route.endLine)

/-- Decimal digits of a natural number, the value of JavaScript
`ToString(number)` for the integers at hand. -/
def natKey (n : Nat) : List Char :=
  Nat.toDigits 10 n

/-- Lexicographic (UTF-16 code unit) order on character lists: the order
`Array.prototype.sort`'s default comparator induces on the stringified
elements. -/
def lexLe : List Char → List Char → Bool
  | [], _ => true
  | _ :: _, [] => false
  | a :: as, b :: bs => if a = b then lexLe as bs else decide (a < b)

/-- Insert into a list sorted by the JavaScript default comparator. -/
def insertLex (x : Nat) : List Nat → List Nat
  | [] => [x]
  | y :: ys => if lexLe (natKey x) (natKey y) then x :: y :: ys else y :: insertLex x ys

/-- Embeds `changedLines.sort()` with the DEFAULT comparator: the numbers are
compared as strings, i.e. sorted lexicographically by decimal notation.
(Insertion sort; the order is total and distinct numbers have distinct
keys, so this is the list any correct sort produces.) -/
def jsSort : List Nat → List Nat
  | [] => []
  | x :: xs => insertLex x (jsSort xs)

/-- The body of the inner `routes.forEach`: an unassigned route whose range
contains the line receives it as `selectedLine`. -/
def stepFn (line : Nat) (r : Route) : Route :=
  if r.selectedLine.isNone && inR r line then { r with selectedLine := some line } else r

/-- One iteration of the outer `forEach`: scan ALL routes (JavaScript's
`forEach` does not break), assigning `line` to every unassigned route whose
range contains it and pushing `line` once for each assignment. -/
def assignLine (line : Nat) : List Route → List Route × List Nat
  | [] => ([], [])
  | r :: rs =>
    let rest := assignLine line rs
    if r.selectedLine.isNone && inR r line then
      ({ r with selectedLine := some line } :: rest.1, line :: rest.2)
    else
      (r :: rest.1, rest.2)

/-- The outer `forEach` over the sorted changed lines, threading the mutated
routes array and accumulating `commentingLines`. -/
def runLines : List Nat → List Route → List Route × List Nat
  | [], routes => (routes, [])
  | l :: ls, routes =>
    let step := assignLine l routes
    let rest := runLines ls step.1
    (rest.1, step.2 ++ rest.2)

/-- Embeds `getCommentingLines`: sort the changed lines with the default (string)
comparator, run the nested `forEach`.  Returns the `commentingLines` result
together with the routes array as mutated by the call. -/
def getCommentingLines (routes : List Route) (changedLines : List Nat) : List Nat × List Route :=
  let run := runLines (jsSort changedLines) routes
  (run.2, run.1)

/-- The cumulative effect of all loop iterations on one cell of the routes
array (each cell's update depends only on that cell, so the nested loops act
cellwise). -/
def applyLines : List Nat → Route → Route
  | [], r => r
  | l :: ls, r => applyLines ls (stepFn l r)

/-- Modelled from the spec: the matcher the specification describes, which
iterates the changed lines in ascending NUMERIC order and assigns each to
the FIRST not-yet-assigned block containing it.  Used only to compare the
code against the specification's words. -/
def specAssignFirst (line : Nat) : List Route → List Route × Bool
  | [] => ([], false)
  | r :: rs =>
    if r.selectedLine.isNone && inR r line then
      ({ r with selectedLine := some line } :: rs, true)
    else
      let rest := specAssignFirst line rs
      (r :: rest.1, rest.2)

/-- Modelled from the spec: insertion into an ascending numeric order. -/
def insertNum (x : Nat) : List Nat → List Nat
  | [] => [x]
  | y :: ys => if x ≤ y then x :: y :: ys else y :: insertNum x ys

/-- Modelled from the spec: ascending numeric sort. -/
def numSort : List Nat → List Nat
  | [] => []
  | x :: xs => insertNum x (numSort xs)

/-- Modelled from the spec: run the spec's first-fit matcher over the
numerically sorted changed lines, collecting the assigned lines. -/
def specFirstFitAsc (routes : List Route) (changedLines : List Nat) : List Nat :=
  (numSort changedLines).foldl
    (fun acc line =>
      let step := specAssignFirst line acc.2
      (if step.2 then acc.1 ++ [line] else acc.1, step.1))
    (([] : List Nat), routes)
  |>.1

/-! ### The reconciler (`addPRComments`, src/index.js lines 383–414) -/

/-- An existing review comment as returned by the annotation service:
`path` and `original_line` are the fields `addPRComments` consults. -/
structure RComment where
  path : List Char
  originalLine : Nat
deriving DecidableEq, Repr

/-- Embeds `addPRComments` (minus the API calls): returns the lines for which a
comment is created, in order, together with the `commentAdded` flag.  A
candidate line is skipped exactly when some existing comment has the same
path and the same `original_line`. -/
def addPRComments (commentingLines : List Nat) (file : List Char)
    (existingComments : List RComment) : List Nat × Bool :=
  let created := commentingLines.filter
    (fun line =>
      !(existingComments.any (fun c => decide (c.path = file) && decide (c.originalLine = line))))
  (created, !created.isEmpty)

/-! ### Block body reconstruction -/

/-- The 1-indexed inclusive slice `lines[s..e]` of a file's line list. -/
def sliceLines (lines : List (List Char)) (s e : Nat) : List (List Char) :=
  (lines.drop (s - 1)).take (e + 1 - s)

/-- Concatenation of the file's lines from `s` to `e` (1-indexed,
inclusive), each followed by a newline — exactly how `detectRoutesInFile`
accumulates `routeContent` for a block spanning those lines. -/
def blockConcat (lines : List (List Char)) (s e : Nat) : List Char :=
  ((sliceLines lines s e).map (fun l => l ++ ['\n'])).flatten

/-- Facts holding of every route pushed by the scanning loop before
0-indexed line `i` is processed: sane 1-indexed bounds, a closed (never
`incomplete`) type, no `selectedLine` yet, and a body that is the trimmed
concatenation of the block's lines. -/
def RouteOk (lines : List (List Char)) (i : Nat) (r : Route) : Prop :=
  1 ≤ r.startLine ∧ r.startLine ≤ r.endLine ∧ r.endLine ≤ i ∧
  r.type ≠ RouteType.incomplete ∧ r.selectedLine = none ∧
  r.code = trimChars (blockConcat lines r.startLine r.endLine)

/-- Loop invariant of the scanning loop, holding before 0-indexed line `i`
is processed. -/
def ScanInv (lines : List (List Char)) (i : Nat) (st : ScanState) : Prop :=
  (∀ r ∈ st.routes, RouteOk lines i r) ∧
  st.routes.Pairwise (fun a b => a.endLine < b.startLine) ∧
  (st.routerVariable = none → st.insideRoute = false) ∧
  (st.insideRoute = true →
    1 ≤ st.startLine ∧ st.startLine ≤ i ∧
    (∀ r ∈ st.routes, r.endLine < st.startLine) ∧
    st.routeContent = blockConcat lines st.startLine i)

/-! ### Theorems -/

/-- C4: the hunk header `@@ -10,2 +10,4 @@` yields hunk record
`{originalStart: 10, newStart: 10}` and changed lines `[10, 11, 12, 13]`;
a header with the count omitted (`@@ -5 +7 @@`) defaults the count to 1. -/
theorem C4_hunk_extraction :
    extractFileDiff "@@ -10,2 +10,4 @@".data =
      some ([{ originalStart := 10, newStart := 10 }], [10, 11, 12, 13]) ∧
    extractFileDiff "@@ -5 +7 @@".data =
      some ([{ originalStart := 5, newStart := 7 }], [7]) := by
  decide

/-- C6 counterexample: scanning the one-line file `target.get('/x', fn);`
(with every line of the file changed) yields NO block at all, because no
`express.Router()` binding line precedes it, contradicting the claimed
"exactly one block". -/
theorem C6_counterexample :
    (detectRoutesInFile
        ("target.get(".data ++ [quoteCh] ++ "/x".data ++ [quoteCh] ++ ", fn);".data)
        [1]).length = 0 ∧
    (0 : Nat) ≠ 1 := by
  decide

/-- C6 amended: a file binding `target` to `express.Router()` on line 1 and
containing `target.get('/x', fn);` on line 2, with every line changed,
yields exactly one block with `type = single-line` and
`startLine = endLine`. -/
theorem C6_single_line_amended :
    detectRoutesInFile
        ("const target = express.Router()\ntarget.get(".data ++ [quoteCh] ++ "/x".data
          ++ [quoteCh] ++ ", fn);".data)
        [1, 2] =
      [{ startLine := 2
         endLine := 2
         code := "target.get(".data ++ [quoteCh] ++ "/x".data ++ [quoteCh] ++ ", fn);".data
         type := .singleLine
         selectedLine := none }] := by
  decide

/-- C2 counterexample: for the file `const r = express.Router()\n  r.get(0);`
the scanner records the block `[2, 2]` with body `r.get(0);` (trimmed), while
the file's line 2 is `  r.get(0);` — so concatenating the raw lines of the
block (with or without their newlines) does NOT reproduce the recorded
body. -/
theorem C2_counterexample :
    detectRoutesInFile "const r = express.Router()\n  r.get(0);".data [1, 2] =
      [{ startLine := 2
         endLine := 2
         code := "r.get(0);".data
         type := .singleLine
         selectedLine := none }] ∧
    blockConcat (splitNl "const r = express.Router()\n  r.get(0);".data) 2 2 =
      "  r.get(0);\n".data ∧
    (sliceLines (splitNl "const r = express.Router()\n  r.get(0);".data) 2 2).flatten =
      "  r.get(0);".data ∧
    "r.get(0);".data ≠ "  r.get(0);\n".data ∧
    "r.get(0);".data ≠ "  r.get(0);".data := by
  decide

/-- C1 counterexample: for the scanner-shaped block `[2, 15]` and changed
lines `{3, 11}`, the matcher picks line 11 (JavaScript's default sort puts
the string `"11"` before `"3"`), whereas the claimed ascending-numeric
first-fit policy picks line 3. -/
theorem C1_counterexample :
    (getCommentingLines
        [{ startLine := 2, endLine := 15, code := [], type := .incomplete }]
        [3, 11]).1 = [11] ∧
    specFirstFitAsc
        [{ startLine := 2, endLine := 15, code := [], type := .incomplete }]
        [3, 11] = [3] ∧
    ([11] : List Nat) ≠ [3] := by
  decide

/-- C5 counterexample: with candidate line 5 and first-run snapshot already
containing an annotation at `(f, 5)`, the first run creates nothing, so a
second-run snapshot that contains an annotation for *every annotation the
first run created* may be empty — and then the second run creates one new
annotation, not zero. -/
theorem C5_counterexample :
    (addPRComments [5] ['f'] [{ path := ['f'], originalLine := 5 }]).1 = [] ∧
    (∀ l ∈ (addPRComments [5] ['f'] [{ path := ['f'], originalLine := 5 }]).1,
      ∃ c ∈ ([] : List RComment), c.path = ['f'] ∧ c.originalLine = l) ∧
    (addPRComments [5] ['f'] []).1 = [5] ∧
    ([5] : List Nat) ≠ [] := by
  decide

theorem mapHunks_eq_none (ls : List (List Char)) (l : List Char)
    (hm : l ∈ ls) (hf : findHunk l = none) : mapHunks ls = none := by
  induction ls with
  | nil => cases hm
  | cons a as ih =>
    rcases List.mem_cons.mp hm with h | h
    · subst h
      simp [mapHunks, hf]
    · cases hfa : findHunk a with
      | none => simp [mapHunks, hfa]
      | some r => simp [mapHunks, hfa, ih h]

/-- C8: a line of the diff output that begins with `@@` but on which the
hunk-header regex finds no match makes `getDiffHunks` throw (`match[1]` on
`null`), so neither a hunk list nor a changed-line set is produced for the
file. -/
theorem C8_malformed_header (diffOutput line : List Char)
    (hmem : line ∈ splitNl diffOutput)
    (hat : listStartsWith line ['@', '@'] = true)
    (hbad : findHunk line = none) :
    getDiffHunks diffOutput = none ∧ extractFileDiff diffOutput = none := by
  have h1 : getDiffHunks diffOutput = none := by
    unfold getDiffHunks
    exact mapHunks_eq_none _ line (List.mem_filter.mpr ⟨hmem, by simpa using hat⟩) hbad
  refine ⟨h1, ?_⟩
  unfold extractFileDiff
  rw [h1]

/-- C8 witness: the concrete diff output `"@@ garbage\n@@ -5 +7 @@"`
contains the malformed header line `"@@ garbage"`, and its extraction
produces nothing. -/
theorem C8_witness :
    ("@@ garbage".data ∈ splitNl "@@ garbage\n@@ -5 +7 @@".data) ∧
    extractFileDiff "@@ garbage\n@@ -5 +7 @@".data = none :=
  ⟨by decide,
   (C8_malformed_header "@@ garbage\n@@ -5 +7 @@".data "@@ garbage".data
      (by decide) (by decide) (by decide)).2⟩

/-- C9: the old-line mapping returns `none` iff the target line is below
every hunk's `newStart`; otherwise it uses the FIRST hunk in list order with
`newStart ≤ targetLine` and returns
`targetLine - newStart + originalStart`. -/
theorem C9_find_hunk_line (hunks : List DiffHunk) (t : Nat) :
    (findDiffHunkLineNumber hunks t = none ↔ ∀ h ∈ hunks, t < h.newStart) ∧
    findDiffHunkLineNumber hunks t =
      (hunks.find? (fun h => decide (h.newStart ≤ t))).map
        (fun h => t - h.newStart + h.originalStart) := by
  induction hunks with
  | nil => simp [findDiffHunkLineNumber]
  | cons hd rest ih =>
    by_cases hc : hd.newStart ≤ t
    · refine ⟨?_, ?_⟩
      · simp only [findDiffHunkLineNumber, ge_iff_le, hc, if_pos]
        constructor
        · intro h
          cases h
        · intro hall
          exact absurd (hall hd (List.mem_cons_self hd rest)) (by omega)
      · simp only [findDiffHunkLineNumber, ge_iff_le, hc, if_pos]
        rw [List.find?_cons_of_pos _ (by simpa using hc)]
        rfl
    · have hred : findDiffHunkLineNumber (hd :: rest) t = findDiffHunkLineNumber rest t := by
        simp only [findDiffHunkLineNumber, ge_iff_le]
        rw [if_neg hc]
      refine ⟨?_, ?_⟩
      · rw [hred, ih.1]
        constructor
        · intro hall h hm
          rcases List.mem_cons.mp hm with h' | h'
          · subst h'
            omega
          · exact hall h h'
        · intro hall h hm
          exact hall h (List.mem_cons_of_mem _ hm)
      · rw [hred, List.find?_cons_of_neg _ (by simpa using hc), ih.2]

/-- C9 witness: concrete evaluations through the theorem — the first hunk in
list order wins for target line 8, and a target below every `newStart` maps
to `none`. -/
theorem C9_witness :
    findDiffHunkLineNumber
        [{ originalStart := 5, newStart := 7 }, { originalStart := 1, newStart := 2 }] 8 =
      some 6 ∧
    findDiffHunkLineNumber [{ originalStart := 5, newStart := 7 }] 3 = none :=
  ⟨(C9_find_hunk_line
      [{ originalStart := 5, newStart := 7 }, { originalStart := 1, newStart := 2 }] 8).2.trans
     (by decide),
   (C9_find_hunk_line [{ originalStart := 5, newStart := 7 }] 3).1.mpr (by decide)⟩

/-- C5 amended: if the second run's snapshot contains an annotation (same
path, same original line) for every annotation the first run created AND for
every annotation of the first run's snapshot targeting this file, then the
second run creates zero annotations; moreover, under any snapshot, a
candidate line matched by an existing annotation is skipped. -/
theorem C5_reconciler_amended (lines : List Nat) (file : List Char)
    (ex1 ex2 : List RComment)
    (h1 : ∀ l ∈ (addPRComments lines file ex1).1,
      ∃ c ∈ ex2, c.path = file ∧ c.originalLine = l)
    (h2 : ∀ c ∈ ex1, c.path = file →
      ∃ c2 ∈ ex2, c2.path = file ∧ c2.originalLine = c.originalLine) :
    (addPRComments lines file ex2).1 = [] ∧
    (addPRComments lines file ex2).2 = false ∧
    (∀ (ex : List RComment), ∀ l ∈ lines,
      (∃ c ∈ ex, c.path = file ∧ c.originalLine = l) →
      l ∉ (addPRComments lines file ex).1) := by
  have key : ∀ l ∈ lines,
      (ex2.any (fun c => decide (c.path = file) && decide (c.originalLine = l))) = true := by
    intro l hl
    by_cases hx : (ex1.any (fun c => decide (c.path = file) && decide (c.originalLine = l))) = true
    · rw [List.any_eq_true] at hx
      obtain ⟨c, hc, hcp⟩ := hx
      simp only [Bool.and_eq_true, decide_eq_true_eq] at hcp
      obtain ⟨c2, hc2, hp2, ho2⟩ := h2 c hc hcp.1
      rw [List.any_eq_true]
      exact ⟨c2, hc2, by simp [hp2, ho2, hcp.2]⟩
    · have hmem : l ∈ (addPRComments lines file ex1).1 := by
        unfold addPRComments
        simp only [List.mem_filter]
        exact ⟨hl, by simp [hx]⟩
      obtain ⟨c, hc, hp, ho⟩ := h1 l hmem
      rw [List.any_eq_true]
      exact ⟨c, hc, by simp [hp, ho]⟩
  have hfil : lines.filter
      (fun line =>
        !(ex2.any (fun c => decide (c.path = file) && decide (c.originalLine = line)))) = [] := by
    rw [List.filter_eq_nil_iff]
    intro l hl
    simp [key l hl]
  refine ⟨?_, ?_, ?_⟩
  · simpa [addPRComments] using hfil
  · simp only [addPRComments]
    rw [hfil]
    rfl
  · intro ex l _hl hcov hmem
    unfold addPRComments at hmem
    simp only [List.mem_filter, Bool.not_eq_true'] at hmem
    rw [List.any_eq_false] at hmem
    obtain ⟨c, hc, hp, ho⟩ := hcov
    exact absurd (by simp [hp, ho] : (decide (c.path = file) && decide (c.originalLine = l)) = true)
      (by simpa using hmem.2 c hc)

/-- C5 witness: concrete second run — snapshot `[(f, 5)]` covers both the
(empty) creation list of the first run and the first run's snapshot, and
the second run creates nothing. -/
theorem C5_witness :
    (addPRComments [5] ['f'] [{ path := ['f'], originalLine := 5 }]).1 = [] ∧
    (addPRComments [5] ['f'] [{ path := ['f'], originalLine := 5 }]).2 = false := by
  have h := C5_reconciler_amended [5] ['f']
    [{ path := ['f'], originalLine := 5 }] [{ path := ['f'], originalLine := 5 }]
    (by decide) (by decide)
  exact ⟨h.1, h.2.1⟩

theorem stepFn_frame (l : Nat) (r : Route) :
    (stepFn l r).startLine = r.startLine ∧ (stepFn l r).endLine = r.endLine ∧
    (stepFn l r).code = r.code ∧ (stepFn l r).type = r.type := by
  unfold stepFn
  split <;> simp

theorem inR_stepFn (l l' : Nat) (r : Route) : inR (stepFn l r) l' = inR r l' := by
  unfold stepFn inR
  split <;> simp

theorem stepFn_isNone (l : Nat) (r : Route) :
    (stepFn l r).selectedLine.isNone = (r.selectedLine.isNone && !(inR r l)) := by
  unfold stepFn
  cases hn : r.selectedLine.isNone <;> cases hi : inR r l <;> simp [hn, hi]

theorem stepFn_of_some (l : Nat) (r : Route) (v : Nat) (h : r.selectedLine = some v) :
    stepFn l r = r := by
  simp [stepFn, h]

theorem applyLines_of_some (ls : List Nat) (r : Route) (v : Nat)
    (h : r.selectedLine = some v) : applyLines ls r = r := by
  induction ls with
  | nil => rfl
  | cons l ls ih => simp only [applyLines, stepFn_of_some l r v h, ih]

theorem applyLines_of_none (ls : List Nat) (r : Route) (h : r.selectedLine = none) :
    applyLines ls r = { r with selectedLine := ls.find? (fun l => inR r l) } := by
  induction ls generalizing r with
  | nil =>
    cases r with
    | mk a b c d e => simp_all [applyLines]
  | cons l ls ih =>
    cases hi : inR r l
    · have hs : stepFn l r = r := by simp [stepFn, hi]
      simp only [applyLines, hs, ih r h, List.find?, hi]
    · have hs : stepFn l r = { r with selectedLine := some l } := by simp [stepFn, h, hi]
      simp only [applyLines, hs,
        applyLines_of_some ls { r with selectedLine := some l } l rfl, List.find?, hi]

theorem applyLines_frame (ls : List Nat) (r : Route) :
    (applyLines ls r).startLine = r.startLine ∧ (applyLines ls r).endLine = r.endLine ∧
    (applyLines ls r).code = r.code ∧ (applyLines ls r).type = r.type := by
  induction ls generalizing r with
  | nil => exact ⟨rfl, rfl, rfl, rfl⟩
  | cons l ls ih =>
    have h := ih (stepFn l r)
    have hs := stepFn_frame l r
    exact ⟨h.1.trans hs.1, h.2.1.trans hs.2.1, h.2.2.1.trans hs.2.2.1, h.2.2.2.trans hs.2.2.2⟩

theorem assignLine_fst (l : Nat) (rs : List Route) :
    (assignLine l rs).1 = rs.map (stepFn l) := by
  induction rs with
  | nil => rfl
  | cons r rs ih =>
    by_cases hc : (r.selectedLine.isNone && inR r l) = true <;>
      simp [assignLine, stepFn, hc, ih]

theorem assignLine_snd_len (l : Nat) (rs : List Route) :
    (assignLine l rs).2.length = rs.countP (fun r => r.selectedLine.isNone && inR r l) := by
  induction rs with
  | nil => rfl
  | cons r rs ih =>
    by_cases hc : (r.selectedLine.isNone && inR r l) = true <;>
      simp [assignLine, hc, ih, List.countP_cons]

theorem runLines_fst (ls : List Nat) (rs : List Route) :
    (runLines ls rs).1 = rs.map (applyLines ls) := by
  induction ls generalizing rs with
  | nil =>
    simp only [runLines]
    induction rs with
    | nil => rfl
    | cons a as iha =>
      rw [List.map_cons, ← iha]
      rfl
  | cons l ls ih =>
    simp only [runLines]
    rw [assignLine_fst, ih, List.map_map]
    congr 1

theorem countP_disjoint_split {α : Type} (P Q R : α → Bool)
    (h : ∀ a, (P a || Q a) = R a ∧ (P a && Q a) = false) (l : List α) :
    l.countP P + l.countP Q = l.countP R := by
  induction l with
  | nil => rfl
  | cons a as ih =>
    obtain ⟨h1, h2⟩ := h a
    rw [List.countP_cons, List.countP_cons, List.countP_cons, ← h1]
    cases hP : P a <;> cases hQ : Q a <;> simp_all <;> omega

theorem countP_congr_mem {α : Type} (p q : α → Bool) (l : List α)
    (h : ∀ a ∈ l, p a = q a) : l.countP p = l.countP q := by
  induction l with
  | nil => rfl
  | cons a as ih =>
    rw [List.countP_cons, List.countP_cons, h a (List.mem_cons_self a as),
      ih (fun b hb => h b (List.mem_cons_of_mem a hb))]

theorem runLines_snd_len (ls : List Nat) (rs : List Route) :
    (runLines ls rs).2.length =
      rs.countP (fun r => r.selectedLine.isNone && ls.any (fun l => inR r l)) := by
  induction ls generalizing rs with
  | nil =>
    simp only [runLines, List.length_nil]
    rw [eq_comm, List.countP_eq_zero]
    intro a _
    simp
  | cons l ls ih =>
    simp only [runLines]
    rw [List.length_append, assignLine_snd_len, assignLine_fst, ih, List.countP_map]
    apply countP_disjoint_split
    intro r
    simp only [Function.comp_apply, stepFn_isNone, inR_stepFn, List.any_cons]
    cases ha : r.selectedLine.isNone <;> cases hb : inR r l <;>
      cases hc : ls.any (fun l' => inR r l') <;> simp

theorem insertLex_perm (x : Nat) (l : List Nat) : List.Perm (insertLex x l) (x :: l) := by
  induction l with
  | nil => exact List.Perm.refl _
  | cons y ys ih =>
    simp only [insertLex]
    by_cases hc : lexLe (natKey x) (natKey y) = true
    · rw [if_pos hc]
    · rw [if_neg hc]
      exact (ih.cons y).trans (List.Perm.swap x y ys)

theorem jsSort_perm (l : List Nat) : List.Perm (jsSort l) l := by
  induction l with
  | nil => exact List.Perm.refl _
  | cons x xs ih => exact (insertLex_perm x (jsSort xs)).trans (ih.cons x)

theorem any_eq_of_perm {l1 l2 : List Nat} (h : List.Perm l1 l2) (p : Nat → Bool) :
    l1.any p = l2.any p := by
  cases h1 : l1.any p <;> cases h2 : l2.any p <;> try rfl
  · rw [List.any_eq_false] at h1
    rw [List.any_eq_true] at h2
    obtain ⟨a, ha, hp⟩ := h2
    exact absurd hp (by simpa using h1 a (h.mem_iff.mpr ha))
  · rw [List.any_eq_true] at h1
    rw [List.any_eq_false] at h2
    obtain ⟨a, ha, hp⟩ := h1
    exact absurd hp (by simpa using h2 a (h.mem_iff.mp ha))

/-- C1 amended: the matcher sorts the changed lines with JavaScript's
default comparator — i.e. in ascending LEXICOGRAPHIC order of their decimal
strings, not ascending numeric order — and each scanner-produced block (no
`selectedLine` yet) receives the first line in that order lying in its
range; the number of collected candidate lines equals the number of
affected blocks (exactly one per affected block), and the result is
deterministic because the embedding is a pure function of its inputs. -/
theorem C1_matcher_amended (routes : List Route) (changedLines : List Nat)
    (hnone : ∀ r ∈ routes, r.selectedLine = none) :
    ((getCommentingLines routes changedLines).2).length = routes.length ∧
    (∀ (i : Nat) (r : Route), routes[i]? = some r →
      ((getCommentingLines routes changedLines).2)[i]? =
        some { r with selectedLine := (jsSort changedLines).find? (fun l => inR r l) }) ∧
    ((getCommentingLines routes changedLines).1).length =
      routes.countP (fun r => changedLines.any (fun l => inR r l)) := by
  have hfst : (getCommentingLines routes changedLines).2 =
      routes.map (applyLines (jsSort changedLines)) := by
    simp only [getCommentingLines]
    exact runLines_fst _ _
  refine ⟨by rw [hfst, List.length_map], ?_, ?_⟩
  · intro i r hir
    have hr : r ∈ routes := List.getElem?_mem hir
    rw [hfst, List.getElem?_map, hir, Option.map_some']
    rw [applyLines_of_none _ r (hnone r hr)]
  · have hsnd : (getCommentingLines routes changedLines).1 =
        (runLines (jsSort changedLines) routes).2 := rfl
    rw [hsnd, runLines_snd_len]
    apply countP_congr_mem
    intro r hr
    rw [hnone r hr]
    simp only [Option.isNone_none, Bool.true_and]
    exact any_eq_of_perm (jsSort_perm changedLines) _

/-- C1 witness: one scanner-shaped block `[2, 5]` and changed line list
`[3]` — the mutated array keeps its length, the block is assigned line 3,
and exactly one candidate line is collected. -/
theorem C1_witness :
    ((getCommentingLines
        [{ startLine := 2, endLine := 5, code := [], type := .singleLine }] [3]).2).length =
      ([{ startLine := 2, endLine := 5, code := [], type := RouteType.singleLine,
          selectedLine := none }] : List Route).length ∧
    (∀ (i : Nat) (r : Route),
      ([{ startLine := 2, endLine := 5, code := [], type := RouteType.singleLine,
          selectedLine := none }] : List Route)[i]? = some r →
      ((getCommentingLines
          [{ startLine := 2, endLine := 5, code := [], type := .singleLine }] [3]).2)[i]? =
        some { r with selectedLine := (jsSort [3]).find? (fun l => inR r l) }) ∧
    ((getCommentingLines
        [{ startLine := 2, endLine := 5, code := [], type := .singleLine }] [3]).1).length =
      ([{ startLine := 2, endLine := 5, code := [], type := RouteType.singleLine,
          selectedLine := none }] : List Route).countP
        (fun r => [3].any (fun l => inR r l)) :=
  C1_matcher_amended
    [{ startLine := 2, endLine := 5, code := [], type := .singleLine }] [3] (by decide)

/-- C10: the matcher returns the routes array with the same length; each
route keeps its `startLine`, `endLine`, `code` and `type`, and its
`selectedLine` is either untouched or has gone from absent to one of the
changed lines lying inside the route's range. -/
theorem C10_matcher_mutation (routes : List Route) (changedLines : List Nat) :
    ((getCommentingLines routes changedLines).2).length = routes.length ∧
    (∀ (i : Nat) (r : Route), routes[i]? = some r →
      ∃ r2, ((getCommentingLines routes changedLines).2)[i]? = some r2 ∧
        r2.startLine = r.startLine ∧ r2.endLine = r.endLine ∧
        r2.code = r.code ∧ r2.type = r.type ∧
        (r2.selectedLine = r.selectedLine ∨
          (r.selectedLine = none ∧ ∃ l, r2.selectedLine = some l ∧ l ∈ changedLines ∧
            r.startLine ≤ l ∧ l ≤ r.endLine))) := by
  have hfst : (getCommentingLines routes changedLines).2 =
      routes.map (applyLines (jsSort changedLines)) := by
    simp only [getCommentingLines]
    exact runLines_fst _ _
  refine ⟨by rw [hfst, List.length_map], ?_⟩
  intro i r hir
  refine ⟨applyLines (jsSort changedLines) r, ?_, (applyLines_frame _ r).1,
    (applyLines_frame _ r).2.1, (applyLines_frame _ r).2.2.1,
    (applyLines_frame _ r).2.2.2, ?_⟩
  · rw [hfst, List.getElem?_map, hir, Option.map_some']
  · cases hsel : r.selectedLine with
    | some v =>
      left
      rw [applyLines_of_some _ r v hsel]
      exact hsel
    | none =>
      rw [applyLines_of_none _ r hsel]
      cases hf : (jsSort changedLines).find? (fun l => inR r l) with
      | none =>
        left
        simp [hsel]
      | some l =>
        right
        refine ⟨rfl, l, by simp, ?_, ?_, ?_⟩
        · exact (jsSort_perm changedLines).mem_iff.mp (List.mem_of_find?_eq_some hf)
        · have := List.find?_some hf
          simp only [inR, Bool.and_eq_true, decide_eq_true_eq] at this
          exact this.1
        · have := List.find?_some hf
          simp only [inR, Bool.and_eq_true, decide_eq_true_eq] at this
          exact this.2

/-- C10 witness: concrete mutation — block `[2, 5]`, changed line 3. -/
theorem C10_witness :
    ((getCommentingLines
        [{ startLine := 2, endLine := 5, code := [], type := .multiLine }] [3]).2).length =
      ([{ startLine := 2, endLine := 5, code := [], type := RouteType.multiLine,
          selectedLine := none }] : List Route).length ∧
    (∀ (i : Nat) (r : Route),
      ([{ startLine := 2, endLine := 5, code := [], type := RouteType.multiLine,
          selectedLine := none }] : List Route)[i]? = some r →
      ∃ r2, ((getCommentingLines
          [{ startLine := 2, endLine := 5, code := [], type := .multiLine }] [3]).2)[i]? =
          some r2 ∧
        r2.startLine = r.startLine ∧ r2.endLine = r.endLine ∧
        r2.code = r.code ∧ r2.type = r.type ∧
        (r2.selectedLine = r.selectedLine ∨
          (r.selectedLine = none ∧ ∃ l, r2.selectedLine = some l ∧ l ∈ [3] ∧
            r.startLine ≤ l ∧ l ≤ r.endLine))) :=
  C10_matcher_mutation
    [{ startLine := 2, endLine := 5, code := [], type := .multiLine }] [3]

theorem blockConcat_single (lines : List (List Char)) (i : Nat) (l : List Char)
    (hl : lines[i]? = some l) : blockConcat lines (i + 1) (i + 1) = l ++ ['\n'] := by
  have hlt : i < lines.length := by
    rw [List.getElem?_eq_some] at hl
    exact hl.1
  have hval : lines[i] = l := by
    rw [List.getElem?_eq_some] at hl
    exact hl.2
  unfold blockConcat sliceLines
  have ht : i + 1 + 1 - (i + 1) = 1 := by omega
  have hd : i + 1 - 1 = i := by omega
  rw [ht, hd, List.drop_eq_getElem_cons hlt, hval]
  simp

theorem blockConcat_snoc (lines : List (List Char)) (s e : Nat) (l : List Char)
    (h1 : 1 ≤ s) (h2 : s ≤ e + 1) (hl : lines[e]? = some l) :
    blockConcat lines s (e + 1) = blockConcat lines s e ++ (l ++ ['\n']) := by
  unfold blockConcat sliceLines
  have he1 : e + 1 + 1 - s = (e + 1 - s) + 1 := by omega
  rw [he1, List.take_succ]
  have hg : (lines.drop (s - 1))[e + 1 - s]? = some l := by
    rw [List.getElem?_drop]
    have : s - 1 + (e + 1 - s) = e := by omega
    rw [this]
    exact hl
  rw [hg]
  simp

theorem RouteOk.mono {lines : List (List Char)} {i j : Nat} {r : Route}
    (h : RouteOk lines i r) (hij : i ≤ j) : RouteOk lines j r :=
  ⟨h.1, h.2.1, by have := h.2.2.1; omega, h.2.2.2.1, h.2.2.2.2.1, h.2.2.2.2.2⟩

theorem routeOk_mk (lines : List (List Char)) (i s e : Nat) (c : List Char)
    (t : RouteType) (h1 : 1 ≤ s) (h2 : s ≤ e) (h3 : e ≤ i)
    (ht : t ≠ RouteType.incomplete) (hc : c = trimChars (blockConcat lines s e)) :
    RouteOk lines i
      { startLine := s, endLine := e, code := c, type := t, selectedLine := none } :=
  ⟨h1, h2, h3, ht, rfl, hc⟩

theorem routeBodyStep_inv (lines : List (List Char)) (i : Nat) (st : ScanState)
    (l v : List Char) (hl : lines[i]? = some l)
    (hA : ∀ r ∈ st.routes, RouteOk lines i r)
    (hP : st.routes.Pairwise (fun a b => a.endLine < b.startLine))
    (hD : st.insideRoute = true →
      1 ≤ st.startLine ∧ st.startLine ≤ i ∧
      (∀ r ∈ st.routes, r.endLine < st.startLine) ∧
      st.routeContent = blockConcat lines st.startLine i) :
    ScanInv lines (i + 1) (routeBodyStep st i l v) := by
  unfold routeBodyStep
  by_cases h1 : (routeStartTest v l && !st.insideRoute) = true
  · rw [if_pos h1]
    by_cases h2 : listEndsWith (trimChars l) [')', ';'] = true
    · rw [if_pos h2]
      refine ⟨?_, ?_, fun _ => rfl, fun hbad => by simp at hbad⟩
      · intro r hr
        rcases List.mem_append.mp hr with hr | hr
        · exact (hA r hr).mono (by omega)
        · rcases List.mem_singleton.mp hr with rfl
          refine routeOk_mk lines (i + 1) (i + 1) (i + 1) _ _ (by omega) (by omega)
            (by omega) (by simp) ?_
          rw [blockConcat_single lines i l hl]
      · show (st.routes ++ [_]).Pairwise _
        rw [List.pairwise_append]
        refine ⟨hP, List.pairwise_singleton _ _, ?_⟩
        intro a ha b hb
        rcases List.mem_singleton.mp hb with rfl
        have := (hA a ha).2.2.1
        show a.endLine < i + 1
        omega
    · rw [if_neg h2]
      refine ⟨fun r hr => (hA r hr).mono (by omega), hP,
        fun hcon => by simp at hcon, fun _ => ?_⟩
      refine ⟨Nat.le_add_left 1 i, Nat.le_refl (i + 1), ?_, ?_⟩
      · intro r hr
        have := (hA r hr).2.2.1
        show r.endLine < i + 1
        omega
      · show l ++ ['\n'] = blockConcat lines (i + 1) (i + 1)
        rw [blockConcat_single lines i l hl]
  · rw [if_neg h1]
    by_cases h3 : st.insideRoute = true
    · rw [if_pos h3]
      obtain ⟨hs1, hs2, hs3, hs4⟩ := hD h3
      by_cases h4 : (trimChars l = [')', ';'] || hasSub [')', ';'] l) = true
      · rw [if_pos h4]
        refine ⟨?_, ?_, fun _ => rfl, fun hbad => by simp at hbad⟩
        · intro r hr
          rcases List.mem_append.mp hr with hr | hr
          · exact (hA r hr).mono (by omega)
          · rcases List.mem_singleton.mp hr with rfl
            refine routeOk_mk lines (i + 1) st.startLine (i + 1) _ _ hs1 (by omega)
              (by omega) (by simp) ?_
            rw [hs4, List.append_assoc,
              ← blockConcat_snoc lines st.startLine i l hs1 (by omega) hl]
        · show (st.routes ++ [_]).Pairwise _
          rw [List.pairwise_append]
          refine ⟨hP, List.pairwise_singleton _ _, ?_⟩
          intro a ha b hb
          rcases List.mem_singleton.mp hb with rfl
          have := hs3 a ha
          show a.endLine < st.startLine
          omega
      · rw [if_neg h4]
        refine ⟨fun r hr => (hA r hr).mono (by omega), hP,
          fun hcon => by simp at hcon, fun _ => ?_⟩
        refine ⟨hs1, Nat.le_succ_of_le hs2, ?_, ?_⟩
        · intro r hr
          have := hs3 r hr
          show r.endLine < st.startLine
          omega
        · show st.routeContent ++ l ++ ['\n'] = blockConcat lines st.startLine (i + 1)
          rw [hs4, List.append_assoc,
            ← blockConcat_snoc lines st.startLine i l hs1 (by omega) hl]
    · rw [if_neg h3]
      refine ⟨fun r hr => (hA r hr).mono (by omega), hP,
        fun hcon => by simp at hcon, fun hbad => ?_⟩
      exact absurd hbad h3

theorem processLine_inv (lines : List (List Char)) (i : Nat) (st : ScanState)
    (l : List Char) (hl : lines[i]? = some l) (hinv : ScanInv lines i st) :
    ScanInv lines (i + 1) (processLine st i l) := by
  obtain ⟨hA, hP, hRV, hD⟩ := hinv
  unfold processLine
  cases hv : st.routerVariable with
  | none =>
    cases hd : findDecl l with
    | none =>
      simp only [hv, hd]
      have hins : st.insideRoute = false := hRV hv
      refine ⟨fun r hr => (hA r hr).mono (by omega), hP, fun _ => hins, fun hbad => ?_⟩
      rw [hins] at hbad
      cases hbad
    | some v =>
      simp only [hv, hd]
      exact routeBodyStep_inv lines i st l v hl hA hP hD
  | some v =>
    simp only [hv]
    exact routeBodyStep_inv lines i st l v hl hA hP hD

theorem scanLoop_inv (lines : List (List Char)) :
    ∀ (suffix : List (List Char)) (i : Nat) (st : ScanState),
    lines.drop i = suffix → ScanInv lines i st →
    ScanInv lines (i + suffix.length) (scanLoop st i suffix) := by
  intro suffix
  induction suffix with
  | nil =>
    intro i st _ hinv
    simpa using hinv
  | cons l rest ih =>
    intro i st hdrop hinv
    have hl : lines[i]? = some l := by
      have h0 : (lines.drop i)[0]? = some l := by
        rw [hdrop]
        simp
      rw [List.getElem?_drop, Nat.add_zero] at h0
      exact h0
    have hdrop2 : lines.drop (i + 1) = rest := by
      have h0 : (lines.drop i).drop 1 = rest := by
        rw [hdrop]
        simp
      rw [List.drop_drop] at h0
      simpa [Nat.add_comm] using h0
    have h2 := ih (i + 1) _ hdrop2 (processLine_inv lines i st l hl hinv)
    have harith : i + (l :: rest).length = (i + 1) + rest.length := by
      simp only [List.length_cons]
      omega
    rw [harith]
    exact h2

theorem scanInv_init (lines : List (List Char)) : ScanInv lines 0 initScan := by
  refine ⟨fun r hr => absurd hr (List.not_mem_nil r), List.Pairwise.nil, fun _ => rfl,
    fun hbad => ?_⟩
  cases hbad

theorem scanRoutes_master (content : List Char) :
    (∀ r ∈ scanRoutes content,
      1 ≤ r.startLine ∧ r.startLine ≤ r.endLine ∧ r.endLine ≤ (splitNl content).length ∧
      r.selectedLine = none ∧
      r.code = trimChars (blockConcat (splitNl content) r.startLine r.endLine)) ∧
    (scanRoutes content).Pairwise (fun a b => a.endLine < b.startLine) ∧
    ((scanFinal content).insideRoute = true →
      (scanRoutes content).filter (fun r => r.type == RouteType.incomplete) =
        [{ startLine := (scanFinal content).startLine
           endLine := (splitNl content).length
           code := trimChars (scanFinal content).routeContent
           type := RouteType.incomplete }]) ∧
    ((scanFinal content).insideRoute = false →
      (scanRoutes content).filter (fun r => r.type == RouteType.incomplete) = []) := by
  have hfin : ScanInv (splitNl content) (0 + (splitNl content).length) (scanFinal content) :=
    scanLoop_inv (splitNl content) (splitNl content) 0 initScan rfl (scanInv_init _)
  rw [Nat.zero_add] at hfin
  obtain ⟨hA, hP, _, hD⟩ := hfin
  have hfilt : ((scanFinal content).routes.filter
      (fun r => r.type == RouteType.incomplete)) = [] := by
    rw [List.filter_eq_nil_iff]
    intro r hr
    have := (hA r hr).2.2.2.1
    simp only [beq_iff_eq]
    simpa using this
  cases hins : (scanFinal content).insideRoute with
  | false =>
    have hsr : scanRoutes content = (scanFinal content).routes := by
      simp [scanRoutes, hins]
    refine ⟨?_, ?_, ?_, fun _ => ?_⟩
    · intro r hr
      rw [hsr] at hr
      have h := hA r hr
      exact ⟨h.1, h.2.1, h.2.2.1, h.2.2.2.2.1, h.2.2.2.2.2⟩
    · rw [hsr]
      exact hP
    · intro hbad
      simp at hbad
    · rw [hsr]
      exact hfilt
  | true =>
    obtain ⟨hq1, hq2, hq3, _⟩ := hD hins
    have hsr : scanRoutes content = (scanFinal content).routes ++
        [{ startLine := (scanFinal content).startLine
           endLine := (splitNl content).length
           code := trimChars (scanFinal content).routeContent
           type := RouteType.incomplete }] := by
      simp [scanRoutes, hins]
    refine ⟨?_, ?_, fun _ => ?_, ?_⟩
    · intro r hr
      rw [hsr] at hr
      rcases List.mem_append.mp hr with hr | hr
      · have h := hA r hr
        exact ⟨h.1, h.2.1, h.2.2.1, h.2.2.2.2.1, h.2.2.2.2.2⟩
      · rcases List.mem_singleton.mp hr with rfl
        refine ⟨hq1, hq2, Nat.le_refl _, rfl, ?_⟩
        show trimChars (scanFinal content).routeContent = _
        rw [(hD hins).2.2.2]
    · rw [hsr, List.pairwise_append]
      refine ⟨hP, List.pairwise_singleton _ _, ?_⟩
      intro a ha b hb
      rcases List.mem_singleton.mp hb with rfl
      have := hq3 a ha
      show a.endLine < (scanFinal content).startLine
      omega
    · rw [hsr, List.filter_append, hfilt]
      rfl
    · intro hbad
      simp at hbad

/-- C3: every block produced by the scanner (both before and after the
changed-line filter of `detectRoutesInFile`) satisfies
`startLine ≤ endLine`; the blocks are mutually non-overlapping (each ends
strictly before the next starts) and appear in ascending `startLine`
order. -/
theorem C3_scanner_invariants (content : List Char) (changedLines : List Nat) :
    (∀ r ∈ scanRoutes content, r.startLine ≤ r.endLine) ∧
    (scanRoutes content).Pairwise (fun a b => a.endLine < b.startLine) ∧
    (scanRoutes content).Pairwise (fun a b => a.startLine < b.startLine) ∧
    (∀ r ∈ detectRoutesInFile content changedLines, r.startLine ≤ r.endLine) ∧
    (detectRoutesInFile content changedLines).Pairwise
      (fun a b => a.endLine < b.startLine) ∧
    (detectRoutesInFile content changedLines).Pairwise
      (fun a b => a.startLine < b.startLine) := by
  obtain ⟨hA, hP, _, _⟩ := scanRoutes_master content
  have hord : ∀ r ∈ scanRoutes content, r.startLine ≤ r.endLine :=
    fun r hr => (hA r hr).2.1
  have hstart : (scanRoutes content).Pairwise (fun a b => a.startLine < b.startLine) := by
    refine hP.imp_of_mem ?_
    intro a b ha _ hab
    have := hord a ha
    omega
  have hsub : List.Sublist (detectRoutesInFile content changedLines) (scanRoutes content) :=
    List.filter_sublist _
  exact ⟨hord, hP, hstart,
    fun r hr => hord r (List.mem_of_mem_filter hr),
    hP.sublist hsub, hstart.sublist hsub⟩

/-- C3 witness: concrete two-block file — both the raw scan and the
filtered result satisfy the ordering and non-overlap invariants. -/
theorem C3_witness :
    (∀ r ∈ scanRoutes "const r = express.Router()\nr.get(0);\nr.post(0);".data,
      r.startLine ≤ r.endLine) ∧
    (scanRoutes "const r = express.Router()\nr.get(0);\nr.post(0);".data).Pairwise
      (fun a b => a.endLine < b.startLine) ∧
    (scanRoutes "const r = express.Router()\nr.get(0);\nr.post(0);".data).Pairwise
      (fun a b => a.startLine < b.startLine) ∧
    (∀ r ∈ detectRoutesInFile "const r = express.Router()\nr.get(0);\nr.post(0);".data [2, 3],
      r.startLine ≤ r.endLine) ∧
    (detectRoutesInFile "const r = express.Router()\nr.get(0);\nr.post(0);".data
        [2, 3]).Pairwise (fun a b => a.endLine < b.startLine) ∧
    (detectRoutesInFile "const r = express.Router()\nr.get(0);\nr.post(0);".data
        [2, 3]).Pairwise (fun a b => a.startLine < b.startLine) :=
  C3_scanner_invariants "const r = express.Router()\nr.get(0);\nr.post(0);".data [2, 3]

/-- C2 amended: a block's recorded body is the TRIMMED concatenation of the
file's lines from `startLine` to `endLine` (each line followed by its
newline) — reconstruction reproduces the body exactly only after trimming
leading/trailing whitespace. -/
theorem C2_body_reconstruction (content : List Char) (changedLines : List Nat) :
    (∀ r ∈ scanRoutes content,
      r.code = trimChars (blockConcat (splitNl content) r.startLine r.endLine)) ∧
    (∀ r ∈ detectRoutesInFile content changedLines,
      r.code = trimChars (blockConcat (splitNl content) r.startLine r.endLine)) := by
  obtain ⟨hA, _, _, _⟩ := scanRoutes_master content
  exact ⟨fun r hr => (hA r hr).2.2.2.2,
    fun r hr => (hA r (List.mem_of_mem_filter hr)).2.2.2.2⟩

/-- C2 witness: the concrete block of the counterexample file indeed equals
the trimmed concatenation of its lines. -/
theorem C2_witness :
    ({ startLine := 2, endLine := 2, code := "r.get(0);".data,
       type := RouteType.singleLine, selectedLine := none } : Route).code =
      trimChars (blockConcat (splitNl "const r = express.Router()\n  r.get(0);".data)
        ({ startLine := 2, endLine := 2, code := "r.get(0);".data,
           type := RouteType.singleLine, selectedLine := none } : Route).startLine
        ({ startLine := 2, endLine := 2, code := "r.get(0);".data,
           type := RouteType.singleLine, selectedLine := none } : Route).endLine) :=
  (C2_body_reconstruction "const r = express.Router()\n  r.get(0);".data [1, 2]).2
    { startLine := 2, endLine := 2, code := "r.get(0);".data,
      type := RouteType.singleLine, selectedLine := none }
    (by decide)

/-- C7: when the scan reaches end of input while still inside a block, the
scanner emits exactly one block with `type = incomplete`, and that block's
`endLine` is the number of the file's last line. -/
theorem C7_incomplete_block (content : List Char)
    (h : (scanFinal content).insideRoute = true) :
    ((scanRoutes content).filter (fun r => r.type == RouteType.incomplete)).length = 1 ∧
    (∀ r ∈ scanRoutes content, r.type = RouteType.incomplete →
      r.endLine = (splitNl content).length) := by
  obtain ⟨_, _, h3, _⟩ := scanRoutes_master content
  have hf := h3 h
  refine ⟨by rw [hf]; rfl, ?_⟩
  intro r hr htype
  have hrf : r ∈ (scanRoutes content).filter (fun r => r.type == RouteType.incomplete) :=
    List.mem_filter.mpr ⟨hr, by simp [htype]⟩
  rw [hf] at hrf
  rcases List.mem_singleton.mp hrf with rfl
  rfl

/-- C7 witness: the file `const r = express.Router()\nr.get(` ends inside a
block; the scan yields exactly one incomplete block ending at line 2, the
file's last line. -/
theorem C7_witness :
    (scanFinal "const r = express.Router()\nr.get(".data).insideRoute = true ∧
    (((scanRoutes "const r = express.Router()\nr.get(".data).filter
        (fun r => r.type == RouteType.incomplete)).length = 1 ∧
      (∀ r ∈ scanRoutes "const r = express.Router()\nr.get(".data,
        r.type = RouteType.incomplete →
        r.endLine = (splitNl "const r = express.Router()\nr.get(".data).length)) :=
  ⟨by decide, C7_incomplete_block "const r = express.Router()\nr.get(".data (by decide)⟩

end RouteCommenter
